import Mathlib

set_option maxHeartbeats 1000000

/-!
Verification of the OpenWorkflow documentation content synchronizer
(`scripts/sync-spec.ts`).

The script is a sequence of pure text transformations (JavaScript global
regex replaces and a front-matter merge) together with filesystem effects.
The embedding below models

* document bodies as `String` / `List Char`, with each JavaScript
  `String.replace(/.../g, ...)` pass modelled as a left-to-right scanner
  that is faithful to the regex engine's semantics on the specific
  patterns used by the script (leftmost match, greedy character classes,
  scanning resumes after the consumed match);
* front-matter (parsed by the third-party gray-matter library) structurally,
  as a partial map from field names to scalar values, so a document is a
  front-matter map plus a body;
* the filesystem as explicit partial maps from file names to contents,
  threaded through the sync operations in the order the script runs them.
-/

namespace SyncSpec

/-- Write one file into a folder, modelled as a partial map from names to
contents (overwrites any previous content at that name). -/
def update {α : Type} (m : String → Option α) (n : String) (v : α) :
    String → Option α :=
  fun k => if k = n then some v else m k

/-- Strip a literal pattern from the front of a character list:
`some rest` exactly when the list is the pattern followed by `rest`. -/
def stripPre : List Char → List Char → Option (List Char)
  | [], l => some l
  | _ :: _, [] => none
  | p :: ps, c :: cs => if p = c then stripPre ps cs else none

/-- Split a character list at the first occurrence of `stop`: the first
component is the (stop-free) part before it, the second begins with `stop`
when `stop` occurs at all, and is empty otherwise. This is how a greedy
`[^x]*` or `[^x]+` class followed by a forced `x` behaves. -/
def splitUntil (stop : Char) : List Char → List Char × List Char
  | [] => ([], [])
  | c :: cs =>
    if c = stop then ([], c :: cs)
    else
      let r := splitUntil stop cs
      (c :: r.1, r.2)

/-- One left-to-right pass of a JavaScript global regex replace, with
explicit fuel so that the definition is structural (the fuel is set to the
length of the scanned list, which suffices because every match consumes at
least one character). At each position the matcher `tm` is tried; on a
match it returns the replacement text together with the total matched
length `m`, the replacement is emitted, and scanning resumes after the
match; otherwise the character is emitted unchanged. -/
def scanF (tm : List Char → Option (List Char × Nat)) :
    Nat → List Char → List Char
  | 0, _ => []
  | _ + 1, [] => []
  | fuel + 1, c :: cs =>
    match tm (c :: cs) with
    | some (repl, m) => repl ++ scanF tm fuel (cs.drop (m - 1))
    | none => c :: scanF tm fuel cs

/-- A full global-replace pass over a character list. -/
def scan (tm : List Char → Option (List Char × Nat)) (l : List Char) :
    List Char :=
  scanF tm l.length l

/-- Does the segment end in ".md" with at least one character before it?
This is the shape of the capture `([^)]+\.md)` used by the markdown-target
link regexes of the script. -/
def endsWithMd (seg : List Char) : Bool :=
  match seg.reverse with
  | 'd' :: 'm' :: '.' :: _ :: _ => true
  | _ => false

/-- Matcher for the script's link-rewriting regexes, all of which have the
shape: a literal opening `pat` (beginning `](...`), a greedy parenthesis-free
capture (required to end in ".md" when `needMd` is set, and always
non-empty), and a closing parenthesis. The replacement is the literal
`replPre` followed by the capture and the closing parenthesis. -/
def tryLink (pat : List Char) (needMd : Bool) (replPre : List Char)
    (l : List Char) : Option (List Char × Nat) :=
  match stripPre pat l with
  | none => none
  | some rest =>
    let s := splitUntil ')' rest
    if s.2.head? = some ')' then
      if (if needMd then endsWithMd s.1 else !s.1.isEmpty) then
        some (replPre ++ s.1 ++ [')'], pat.length + s.1.length + 1)
      else none
    else none

/-- Matcher for a literal (regex-escaped) global replace. -/
def tryLit (pat repl : List Char) (l : List Char) :
    Option (List Char × Nat) :=
  match stripPre pat l with
  | none => none
  | some _ => some (repl, pat.length)

/-- Matcher for the table angle-bracket regex `/\|([^|]*)<([^|]*)\|/g` with
replacement `|$1&lt;$2|`: a pipe, a pipe-free span containing at least one
angle bracket, and a closing pipe. Greedy backtracking makes the first
capture extend to the last angle bracket of the span, so exactly that
occurrence is replaced by its HTML entity. -/
def tryTable (l : List Char) : Option (List Char × Nat) :=
  match l with
  | [] => none
  | c :: rest =>
    if c = '|' then
      let s := splitUntil '|' rest
      if s.2.head? = some '|' then
        let t := splitUntil '<' s.1.reverse
        if t.2.head? = some '<' then
          some ('|' :: (t.2.tail.reverse ++ ('&' :: 'l' :: 't' :: ';' :: t.1.reverse)
            ++ ['|']), s.1.length + 2)
        else none
      else none
    else none

/-- The literal `](./` opening of a same-directory link. -/
def patRef : List Char := [']', '(', '.', '/']

/-- The literal `](../examples/` opening. -/
def patExUp : List Char :=
  [']', '(', '.', '.', '/', 'e', 'x', 'a', 'm', 'p', 'l', 'e', 's', '/']

/-- The literal `](./docs/reference/` opening (an erroneous pattern the
script normalizes). -/
def patDocsRef : List Char :=
  [']', '(', '.', '/', 'd', 'o', 'c', 's', '/', 'r', 'e', 'f', 'e', 'r',
   'e', 'n', 'c', 'e', '/']

/-- The literal `](./docs/examples/` opening (an erroneous pattern the
script normalizes). -/
def patDocsEx : List Char :=
  [']', '(', '.', '/', 'd', 'o', 'c', 's', '/', 'e', 'x', 'a', 'm', 'p',
   'l', 'e', 's', '/']

/-- The four link-rewriting passes of `syncSpecs`, in the order the script
applies them. -/
def fixLinks (s : String) : String :=
  String.mk (scan (tryLink patDocsEx false patExUp)
    (scan (tryLink patDocsRef false patRef)
      (scan (tryLink patExUp false patExUp)
        (scan (tryLink patRef true patRef) s.data))))

/-- The table angle-bracket escaping pass of `syncSpecs`. -/
def escapeTables (s : String) : String :=
  String.mk (scan tryTable s.data)

/-- The complete body transformation of `syncSpecs`: the four link passes
followed by the table escaping pass. -/
def processBody (s : String) : String :=
  escapeTables (fixLinks s)

/-- A parsed front-matter block: a partial map from field names to scalar
values (the gray-matter data object, modelled structurally). -/
abbrev FM : Type := String → Option String

/-- A markdown document as the gray-matter library sees it: parsed
front-matter data plus the body. -/
structure Doc where
  data : FM
  body : String

/-- Capitalize the first character of a word, as
`w.charAt(0).toUpperCase() + w.slice(1)` does (on the empty word both
halves are empty). -/
def capFirstL : List Char → List Char
  | [] => []
  | c :: cs => c.toUpper :: cs

/-- JavaScript `split('-')`: the list of dash-free segments, with an empty
segment between adjacent dashes and at the ends; the empty string yields a
single empty segment. -/
def splitDash : List Char → List (List Char)
  | [] => [[]]
  | c :: cs =>
    if c = '-' then [] :: splitDash cs
    else
      match splitDash cs with
      | [] => [[c]]
      | w :: ws => (c :: w) :: ws

/-- JavaScript `join(' ')`. -/
def joinSpace : List (List Char) → List Char
  | [] => []
  | [w] => w
  | w :: ws => w ++ ' ' :: joinSpace ws

/-- JavaScript `s.replace(pat, '')` with a plain string pattern: remove the
first occurrence of the pattern, leaving the rest untouched. -/
def replFirst (pat : List Char) : List Char → List Char
  | [] => []
  | c :: cs =>
    match stripPre pat (c :: cs) with
    | some rest => rest
    | none => c :: replFirst pat cs

/-- The literal pattern ".md". -/
def mdPat : List Char := ['.', 'm', 'd']

/-- `file.replace('.md', '')`: the file name with its first ".md"
occurrence removed. -/
def stripMdFirst (file : String) : String :=
  String.mk (replFirst mdPat file.data)

/-- The derived display title: the stripped file name split on dashes, each
segment capitalized, joined with spaces. -/
def baseTitle (file : String) : String :=
  String.mk (joinSpace ((splitDash (stripMdFirst file).data).map capFirstL))

/-- The merged front-matter of an output specification document. The object
literal lists the derived fields first and spreads the parsed source data
last, so a field present in the source front-matter (even with an empty
value) wins, and only absent fields fall back to the filename-derived
defaults. -/
def mergedFM (data : FM) (file : String) : FM :=
  fun k =>
    match data k with
    | some v => some v
    | none =>
      if k = "id" then some (stripMdFirst file)
      else if k = "title" then some (baseTitle file)
      else if k = "sidebar_label" then some (baseTitle file)
      else if k = "description" then some (baseTitle file ++ " specification")
      else none

/-- The per-file transformation of `syncSpecs`: merge front-matter and
transform the body. -/
def processDoc (file : String) (d : Doc) : Doc :=
  { data := mergedFM d.data file, body := processBody d.body }

/-- JavaScript `f.endsWith(".md")`, used to select which directory entries
`syncSpecs` processes. -/
def hasMdSuffix (f : String) : Bool :=
  match f.data.reverse with
  | 'd' :: 'm' :: '.' :: _ => true
  | _ => false

/-- A top-level entry of the source specs folder: a markdown file (with its
parsed content) or a nested subdirectory (whose contents the script never
reads, since `fs.readdir` is not recursive). -/
inductive SpecEntry where
  | file (d : Doc)
  | dir (entries : List (String × SpecEntry))

/-- Look up a directory entry by name. -/
def lookupEntry (es : List (String × SpecEntry)) (n : String) :
    Option SpecEntry :=
  (es.find? (fun p => p.1 == n)).map Prod.snd

/-- The ordered list of top-level names of the specs folder whose name ends
in ".md" (the result of `readdir(...).filter(f => f.endsWith('.md'))`). -/
def mdNames (es : List (String × SpecEntry)) : List String :=
  (es.map Prod.fst).filter (fun f => hasMdSuffix f)

/-- The write loop of `syncSpecs`: process each selected name in order,
writing the transformed document into the reference folder; reading a
directory entry that is not a plain file fails (as `fs.readFile` does on a
directory), leaving the files already written in place. The boolean records
whether the loop completed. -/
def loopSpecs (es : List (String × SpecEntry)) :
    List String → (String → Option Doc) → Bool × (String → Option Doc)
  | [], ref => (true, ref)
  | f :: fs, ref =>
    match lookupEntry es f with
    | some (SpecEntry.file d) => loopSpecs es fs (update ref f (processDoc f d))
    | _ => (false, ref)

/-- The `syncSpecs` operation over an existing specs folder: run the write
loop over the filtered top-level names. -/
def syncSpecsOp (es : List (String × SpecEntry))
    (ref : String → Option Doc) : Bool × (String → Option Doc) :=
  loopSpecs es (mdNames es) ref

/-- A file in the destination examples folder: either a raw copy of a
source file or the synthesized index document. -/
inductive ExEntry where
  | raw (content : String)
  | doc (d : Doc)

/-- `fs.copy` of the source examples tree over the destination: write each
source file in order, overwriting, and leaving destination files not
present in the source untouched. -/
def copyAll (e : String → Option ExEntry) :
    List (String × String) → (String → Option ExEntry)
  | [] => e
  | (n, c) :: rest => copyAll (update e n (ExEntry.raw c)) rest

/-- The front-matter of the synthesized examples index. -/
def indexFM : FM :=
  fun k =>
    if k = "id" then some "examples"
    else if k = "title" then some "Examples"
    else if k = "sidebar_label" then some "Examples"
    else if k = "sidebar_position" then some "5"
    else none

/-- The synthesized examples index document. -/
def indexDoc : Doc :=
  { data := indexFM
    body := "# Examples\n\nExplore example workflows, connectors, and agents demonstrating OpenWorkflow capabilities.\n" }

/-- The `syncExamples` operation over an existing source examples folder:
copy everything, then add the index document only when no file named
"index.md" is present afterwards. -/
def syncExamplesOp (exs : List (String × String))
    (e : String → Option ExEntry) : String → Option ExEntry :=
  let e1 := copyAll e exs
  match e1 "index.md" with
  | none => update e1 "index.md" (ExEntry.doc indexDoc)
  | some _ => e1

/-- The literal `](./specs/` opening rewritten by the root-document sync. -/
def patSpecs : List Char :=
  [']', '(', '.', '/', 's', 'p', 'e', 'c', 's', '/']

/-- The replacement opening `](./reference/`. -/
def replRefDir : List Char :=
  [']', '(', '.', '/', 'r', 'e', 'f', 'e', 'r', 'e', 'n', 'c', 'e', '/']

/-- The literal `](./examples/` opening (rewritten to itself by the
root-document sync). -/
def patExDot : List Char :=
  [']', '(', '.', '/', 'e', 'x', 'a', 'm', 'p', 'l', 'e', 's', '/']

/-- The body transformation applied by `syncRootDocs` to each root
document, in the order the script applies the five replaces. -/
def rootBody (s : String) : String :=
  String.mk
    (scan (tryLit "](./FAQ.md)".data "](https://github.com/Open-Workflow/OpenWorkflow-Specification/blob/main/FAQ.md)".data)
      (scan (tryLit "](./SECURITY-REVIEW.md)".data "](https://github.com/Open-Workflow/OpenWorkflow-Specification/blob/main/SECURITY-REVIEW.md)".data)
        (scan (tryLit "](./CONTRIBUTING.md)".data "](./contributing)".data)
          (scan (tryLink patExDot false patExDot)
            (scan (tryLink patSpecs true replRefDir) s.data)))))

/-- The fixed front-matter attached to the synced readme. -/
def introFM : FM :=
  fun k =>
    if k = "id" then some "intro"
    else if k = "title" then some "Introduction"
    else if k = "sidebar_label" then some "Introduction"
    else if k = "sidebar_position" then some "1"
    else if k = "description" then some "Introduction to OpenWorkflow specification"
    else none

/-- The fixed front-matter attached to the synced contributing guide. -/
def contributingFM : FM :=
  fun k =>
    if k = "id" then some "contributing"
    else if k = "title" then some "Contributing"
    else if k = "sidebar_label" then some "Contributing"
    else if k = "sidebar_position" then some "99"
    else if k = "description" then some "How to contribute to OpenWorkflow"
    else none

/-- The fixed front-matter attached to the synced changelog. -/
def changelogFM : FM :=
  fun k =>
    if k = "id" then some "changelog"
    else if k = "title" then some "Changelog"
    else if k = "sidebar_label" then some "Changelog"
    else if k = "sidebar_position" then some "100"
    else if k = "description" then some "Version history and changes"
    else none

/-- A root document after the root-document sync: fixed front-matter and
the rewritten body. -/
def mkRootDoc (fm : FM) (d : Doc) : Doc :=
  { data := fm, body := rootBody d.body }

/-- The source tree as the script consumes it after resolution: the
optional specs folder, the optional examples folder, and the three optional
root documents. -/
structure SourceTree where
  specs : Option (List (String × SpecEntry))
  examples : Option (List (String × String))
  readme : Option Doc
  contributing : Option Doc
  changelog : Option Doc

/-- The destination documentation tree: the reference folder, the examples
folder, and the top-level root documents. -/
structure DestTree where
  reference : String → Option Doc
  exampleFiles : String → Option ExEntry
  rootDocs : String → Option Doc

/-- The `syncRootDocs` operation: for each of the three known root files
present in the source, write its transformed version at its fixed
destination name; absent files are skipped without failing. -/
def syncRootDocsOp (src : SourceTree) (r : String → Option Doc) :
    String → Option Doc :=
  let r1 := match src.readme with
    | none => r
    | some d => update r "intro.md" (mkRootDoc introFM d)
  let r2 := match src.contributing with
    | none => r1
    | some d => update r1 "contributing.md" (mkRootDoc contributingFM d)
  match src.changelog with
  | none => r2
  | some d => update r2 "changelog.md" (mkRootDoc changelogFM d)

/-- The front-matter of the generated reference overview. -/
def overviewFM : FM :=
  fun k =>
    if k = "id" then some "overview"
    else if k = "title" then some "Specification Overview"
    else if k = "sidebar_label" then some "Overview"
    else if k = "sidebar_position" then some "1"
    else if k = "description" then some "Overview of the OpenWorkflow specification"
    else none

/-- The generated reference overview document written by
`createReferenceIndex`. -/
def overviewDoc : Doc :=
  { data := overviewFM
    body := "# Specification Overview\n\nWelcome to the OpenWorkflow specification reference documentation.\n\nOpenWorkflow is an open standard for building portable AI workflows and automations. This specification defines schemas and behaviors for:\n\n- **Connectors** — External integrations (APIs, databases, MCP servers)\n- **Workflows** — Multi-step automation logic\n- **Agents** — Autonomous AI task executors\n- **Bundles** — Packaged collections of resources\n\n## Specification Files\n\nBrowse the specification documentation:\n\n- [Connector Schema](./connector-schema.md)\n- [Workflow Schema](./workflow-schema.md)\n- [Agent Schema](./agent-schema.md)\n- [Bundle Schema](./bundle-schema.md)\n- [Workflow Logic Steps](./workflow-logic-steps.md)\n- [Execution Backends](./execution-backends.md)\n- [Registry Protocol](./registry-protocol.md)\n- [SDK Contract](./sdk-contract.md)\n\n## License\n\nThe OpenWorkflow specification is licensed under [Apache 2.0](https://github.com/Open-Workflow/OpenWorkflow-Specification/blob/main/LICENSE).\n" }

/-- The whole run of `main` after source resolution, as a function from the
resolved source tree and the prior destination tree to the process exit
code and the new destination tree. The operations run in the script's fixed
order; a missing specs folder or a failure inside the specs loop aborts
before the examples sync, a missing examples folder (which makes `fs.copy`
throw) aborts before the root-document sync, and a completed sequence ends
by writing the reference overview and exiting with code zero. -/
def runSync (src : SourceTree) (d0 : DestTree) : Nat × DestTree :=
  match src.specs with
  | none => (1, d0)
  | some es =>
    let r := syncSpecsOp es d0.reference
    let d1 : DestTree := { d0 with reference := r.2 }
    if r.1 = false then (1, d1)
    else
      match src.examples with
      | none => (1, d1)
      | some exs =>
        let d2 : DestTree := { d1 with exampleFiles := syncExamplesOp exs d1.exampleFiles }
        let d3 : DestTree := { d2 with rootDocs := syncRootDocsOp src d2.rootDocs }
        let d4 : DestTree := { d3 with reference := update d3.reference "overview.md" overviewDoc }
        (0, d4)

/-! ### Basic lemmas about the scanning primitives -/

theorem stripPre_append (p r : List Char) : stripPre p (p ++ r) = some r := by
  induction p with
  | nil => rfl
  | cons c cs ih => simp [stripPre, ih]

theorem stripPre_eq_some {p l r : List Char} (h : stripPre p l = some r) :
    l = p ++ r := by
  induction p generalizing l with
  | nil =>
    simp only [stripPre, Option.some.injEq] at h
    simp [h]
  | cons c cs ih =>
    cases l with
    | nil => simp [stripPre] at h
    | cons b bs =>
      by_cases hc : c = b
      · subst hc
        simp only [stripPre, if_pos rfl] at h
        simpa using ih h
      · simp [stripPre, hc] at h

theorem splitUntil_shape {stop : Char} {l a b : List Char}
    (h : splitUntil stop l = (a, b)) : l = a ++ b := by
  induction l generalizing a b with
  | nil =>
    simp only [splitUntil, Prod.mk.injEq] at h
    simp [← h.1, ← h.2]
  | cons c cs ih =>
    by_cases hc : c = stop
    · simp only [splitUntil, if_pos hc, Prod.mk.injEq] at h
      simp [← h.1, ← h.2]
    · simp only [splitUntil, if_neg hc, Prod.mk.injEq] at h
      have hcs := ih (a := (splitUntil stop cs).1) (b := (splitUntil stop cs).2) rfl
      rw [← h.1, ← h.2, List.cons_append, ← hcs]

theorem splitUntil_append {stop : Char} (a r : List Char)
    (ha : ∀ c ∈ a, c ≠ stop) :
    splitUntil stop (a ++ stop :: r) = (a, stop :: r) := by
  induction a with
  | nil => simp [splitUntil]
  | cons c cs ih =>
    have hc : c ≠ stop := ha c (by simp)
    have ih2 := ih (fun x hx => ha x (by simp [hx]))
    simp only [List.cons_append, splitUntil, if_neg hc, List.append_eq] at ih2 ⊢
    rw [ih2]

theorem splitUntil_no_stop {stop : Char} (l : List Char)
    (hl : ∀ c ∈ l, c ≠ stop) : splitUntil stop l = (l, []) := by
  induction l with
  | nil => rfl
  | cons c cs ih =>
    have hc : c ≠ stop := hl c (by simp)
    have ih2 := ih (fun x hx => hl x (by simp [hx]))
    simp only [splitUntil, if_neg hc] at ih2 ⊢
    rw [ih2]

theorem scanF_nil (tm : List Char → Option (List Char × Nat)) (fuel : Nat) :
    scanF tm fuel [] = [] := by
  cases fuel <;> rfl

/-- A matched head of the full remaining input replaces the whole scan. -/
theorem scan_all {tm : List Char → Option (List Char × Nat)}
    {l repl : List Char} (h : tm l = some (repl, l.length)) (hne : l ≠ []) :
    scan tm l = repl := by
  obtain ⟨c, cs, rfl⟩ := List.exists_cons_of_ne_nil hne
  simp only [scan, List.length_cons, scanF, h, Nat.add_sub_cancel,
    List.drop_length, scanF_nil, List.append_nil]

/-- A failed match at the head lets the scan move one character forward. -/
theorem scan_cons {tm : List Char → Option (List Char × Nat)}
    {c : Char} {cs : List Char} (h : tm (c :: cs) = none) :
    scan tm (c :: cs) = c :: scan tm cs := by
  simp only [scan, List.length_cons, scanF, h]

/-- A scan whose matcher always reproduces the text it consumed is the
identity; this is the shape of the script's regexes whose replacement
rebuilds the match unchanged. -/
theorem scanF_id_of_self {tm : List Char → Option (List Char × Nat)}
    (h : ∀ l r m, tm l = some (r, m) → r = l.take m ∧ 1 ≤ m) :
    ∀ fuel l, l.length ≤ fuel → scanF tm fuel l = l := by
  intro fuel
  induction fuel with
  | zero =>
    intro l hl
    have : l = [] := List.eq_nil_of_length_eq_zero (Nat.le_zero.mp hl)
    simp [this, scanF_nil]
  | succ fuel ih =>
    intro l hl
    cases l with
    | nil => exact scanF_nil tm _
    | cons c cs =>
      have hcs : cs.length ≤ fuel := by
        simp only [List.length_cons] at hl
        omega
      cases htm : tm (c :: cs) with
      | none =>
        simp only [scanF, htm]
        rw [ih cs hcs]
      | some x =>
        obtain ⟨r, m⟩ := x
        obtain ⟨hr, hm⟩ := h _ _ _ htm
        obtain ⟨k, rfl⟩ : ∃ k, m = k + 1 := ⟨m - 1, (Nat.succ_pred_eq_of_pos hm).symm⟩
        simp only [scanF, htm, hr, Nat.add_sub_cancel]
        rw [ih (cs.drop k) (by
          have h1 : (cs.drop k).length ≤ cs.length := by
            simp [List.length_drop]
          exact Nat.le_trans h1 hcs)]
        show (c :: cs).take (k + 1) ++ cs.drop k = c :: cs
        rw [show (c :: cs).take (k + 1) = c :: cs.take k from rfl]
        simp [List.take_append_drop]

/-- A scan whose matcher can only fire on text containing a given character
is the identity on character lists free of that character. -/
theorem scanF_id_of_no {tm : List Char → Option (List Char × Nat)}
    {bad : Char} (h : ∀ l r, tm l = some r → bad ∈ l) :
    ∀ fuel l, l.length ≤ fuel → bad ∉ l → scanF tm fuel l = l := by
  intro fuel
  induction fuel with
  | zero =>
    intro l hl _
    have : l = [] := List.eq_nil_of_length_eq_zero (Nat.le_zero.mp hl)
    simp [this, scanF_nil]
  | succ fuel ih =>
    intro l hl hbad
    cases l with
    | nil => exact scanF_nil tm _
    | cons c cs =>
      have hcs : cs.length ≤ fuel := by
        simp only [List.length_cons] at hl
        omega
      cases htm : tm (c :: cs) with
      | some x => exact absurd (h _ _ htm) hbad
      | none =>
        simp only [scanF, htm]
        rw [ih cs hcs (fun hx => hbad (by simp [hx]))]

theorem scan_id_of_no {tm : List Char → Option (List Char × Nat)}
    {bad : Char} (h : ∀ l r, tm l = some r → bad ∈ l)
    {l : List Char} (hl : bad ∉ l) : scan tm l = l :=
  scanF_id_of_no h l.length l (Nat.le_refl _) hl

/-! ### Characterization of the matchers -/

/-- Any successful link match begins with the literal opening pattern. -/
theorem tryLink_shape {pat rp l : List Char} {b : Bool} {x : List Char × Nat}
    (h : tryLink pat b rp l = some x) : ∃ rest, l = pat ++ rest := by
  unfold tryLink at h
  cases hsp : stripPre pat l with
  | none => rw [hsp] at h; exact absurd h (by simp)
  | some rest => exact ⟨rest, stripPre_eq_some hsp⟩

/-- Every link pattern of the script opens with a closing square bracket,
so a link match needs one in the text. -/
theorem tryLink_mem {pat rp l : List Char} {b : Bool} {x : List Char × Nat}
    (hpat : ∃ pt, pat = ']' :: pt) (h : tryLink pat b rp l = some x) :
    ']' ∈ l := by
  obtain ⟨rest, hrest⟩ := tryLink_shape h
  obtain ⟨pt, rfl⟩ := hpat
  simp [hrest]

/-- A successful literal match starts with the pattern. -/
theorem tryLit_shape {pat repl l : List Char} {x : List Char × Nat}
    (h : tryLit pat repl l = some x) : ∃ rest, l = pat ++ rest := by
  unfold tryLit at h
  cases hsp : stripPre pat l with
  | none => rw [hsp] at h; exact absurd h (by simp)
  | some rest => exact ⟨rest, stripPre_eq_some hsp⟩

/-- A successful table match needs an angle bracket in the text. -/
theorem tryTable_mem {l : List Char} {x : List Char × Nat}
    (h : tryTable l = some x) : '<' ∈ l := by
  cases l with
  | nil => exact absurd h (by simp [tryTable])
  | cons c rest =>
    simp only [tryTable] at h
    by_cases hc : c = '|'
    · rw [if_pos hc] at h
      by_cases h1 : (splitUntil '|' rest).2.head? = some '|'
      · rw [if_pos h1] at h
        by_cases h2 :
            (splitUntil '<' (splitUntil '|' rest).1.reverse).2.head? = some '<'
        · have hmem2 : '<' ∈ (splitUntil '<' (splitUntil '|' rest).1.reverse).2 := by
            cases ht : (splitUntil '<' (splitUntil '|' rest).1.reverse).2 with
            | nil => rw [ht] at h2; exact absurd h2 (by simp)
            | cons t0 tb =>
              rw [ht] at h2
              simp only [List.head?, Option.some.injEq] at h2
              exact List.mem_cons.mpr (Or.inl h2.symm)
          have hrev : (splitUntil '|' rest).1.reverse =
              (splitUntil '<' (splitUntil '|' rest).1.reverse).1 ++
              (splitUntil '<' (splitUntil '|' rest).1.reverse).2 :=
            splitUntil_shape rfl
          have hmem1 : '<' ∈ (splitUntil '|' rest).1 := by
            rw [← List.mem_reverse, hrev]
            simp [hmem2]
          have hrest : rest = (splitUntil '|' rest).1 ++ (splitUntil '|' rest).2 :=
            splitUntil_shape rfl
          rw [hrest]
          simp [hmem1]
        · rw [if_neg h2] at h
          exact absurd h (by simp)
      · rw [if_neg h1] at h
        exact absurd h (by simp)
    · rw [if_neg hc] at h
      exact absurd h (by simp)

theorem scan_id_of_self {tm : List Char → Option (List Char × Nat)}
    (h : ∀ l r m, tm l = some (r, m) → r = l.take m ∧ 1 ≤ m) (l : List Char) :
    scan tm l = l :=
  scanF_id_of_self h l.length l (Nat.le_refl _)

/-- A link pass whose replacement opening equals its pattern reproduces
every match verbatim. -/
theorem tryLink_self (pat : List Char) (b : Bool) :
    ∀ l r m, tryLink pat b pat l = some (r, m) → r = l.take m ∧ 1 ≤ m := by
  intro l r m h
  unfold tryLink at h
  cases hsp : stripPre pat l with
  | none => rw [hsp] at h; exact absurd h (by simp)
  | some rest =>
    rw [hsp] at h
    simp only at h
    by_cases h1 : (splitUntil ')' rest).2.head? = some ')'
    · rw [if_pos h1] at h
      by_cases h2 : (if b then endsWithMd (splitUntil ')' rest).1
          else !(splitUntil ')' rest).1.isEmpty) = true
      · rw [if_pos h2] at h
        simp only [Option.some.injEq, Prod.mk.injEq] at h
        obtain ⟨hr, hm⟩ := h
        have hrest : rest = (splitUntil ')' rest).1 ++ (splitUntil ')' rest).2 :=
          splitUntil_shape rfl
        cases hs2 : (splitUntil ')' rest).2 with
        | nil => rw [hs2] at h1; exact absurd h1 (by simp)
        | cons s0 tl =>
          rw [hs2] at h1 hrest
          simp only [List.head?, Option.some.injEq] at h1
          subst h1
          generalize hsegEq : (splitUntil ')' rest).1 = seg at hrest hr hm
          have hl2 : l = (pat ++ seg ++ [')']) ++ tl := by
            rw [stripPre_eq_some hsp, hrest]
            simp
          refine ⟨?_, by omega⟩
          have hlen : pat.length + seg.length + 1 =
              (pat ++ seg ++ [')']).length := by
            simp only [List.length_append, List.length_cons, List.length_nil]
          rw [← hr, ← hm, hl2, hlen, List.take_left]
      · rw [if_neg h2] at h
        exact absurd h (by simp)
    · rw [if_neg h1] at h
      exact absurd h (by simp)

/-- The first two link passes of the spec sync (and the examples pass of
the root-document sync) replace each match by itself, so they are the
identity on every body. -/
theorem scan_link_self (pat : List Char) (b : Bool) (l : List Char) :
    scan (tryLink pat b pat) l = l :=
  scan_id_of_self (tryLink_self pat b) l

/-- A link pass is the identity on text containing no closing square
bracket (giving its pattern opens with one). -/
theorem scan_link_id {pat rp : List Char} {b : Bool}
    (hpat : ∃ pt, pat = ']' :: pt) {l : List Char} (hl : ']' ∉ l) :
    scan (tryLink pat b rp) l = l :=
  scan_id_of_no (fun _ _ h => tryLink_mem hpat h) hl

/-- The table pass is the identity on text containing no angle bracket. -/
theorem scan_table_id {l : List Char} (hl : '<' ∉ l) :
    scan tryTable l = l :=
  scan_id_of_no (fun _ _ h => tryTable_mem h) hl

/-- Computation of a link match at the head of the input. -/
theorem tryLink_pos (pat : List Char) (b : Bool) (rp seg t : List Char)
    (hseg : ')' ∉ seg)
    (hok : (if b then endsWithMd seg else !seg.isEmpty) = true) :
    tryLink pat b rp (pat ++ (seg ++ ')' :: t)) =
      some (rp ++ seg ++ [')'], pat.length + seg.length + 1) := by
  have hsplit :=@splitUntil_append ')' seg t (fun c hc h' => hseg (h' ▸ hc))
  simp [tryLink, stripPre_append, hsplit, hok]

/-- Cutting two appends at a common depth gives equal prefixes. -/
theorem take_take_eq {a b u v : List Char} (h : a ++ b = u ++ v) (n : Nat)
    (hna : n ≤ a.length) (hnu : n ≤ u.length) : a.take n = u.take n := by
  have h2 := congrArg (List.take n) h
  rwa [List.take_append_of_le_length hna, List.take_append_of_le_length hnu]
    at h2

/-! ### The four link-rewriting passes on the link shapes of the spec -/

theorem patRef_head : ∃ pt, patRef = ']' :: pt := ⟨_, rfl⟩

theorem patExUp_head : ∃ pt, patExUp = ']' :: pt := ⟨_, rfl⟩

theorem patDocsRef_head : ∃ pt, patDocsRef = ']' :: pt := ⟨_, rfl⟩

theorem patDocsEx_head : ∃ pt, patDocsEx = ']' :: pt := ⟨_, rfl⟩


/-- A plain same-directory markdown link is not touched by the
`./docs/reference/` normalization pass (its target does not open with
`docs/`). -/
theorem scan3_miss_md (X : List Char) (hX1 : ']' ∉ X)
    (hX3 : X.take 5 ≠ "docs/".data) :
    scan (tryLink patDocsRef false patRef) (patRef ++ (X ++ ['.', 'm', 'd', ')'])) =
      patRef ++ (X ++ ['.', 'm', 'd', ')']) := by
  have hnone : tryLink patDocsRef false patRef
      (patRef ++ (X ++ ['.', 'm', 'd', ')'])) = none := by
    cases htry : tryLink patDocsRef false patRef
        (patRef ++ (X ++ ['.', 'm', 'd', ')'])) with
    | none => rfl
    | some x =>
      exfalso
      obtain ⟨rest, hrest⟩ := tryLink_shape htry
      rw [show patDocsRef = patRef ++ "docs/reference/".data from rfl,
        List.append_assoc] at hrest
      have hXmd : X ++ ['.', 'm', 'd', ')'] = "docs/reference/".data ++ rest :=
        List.append_cancel_left hrest
      have hlen : 5 ≤ X.length := by
        have hl := congrArg List.length hXmd
        simp only [List.length_append, List.length_cons, List.length_nil] at hl
        omega
      have h5 := take_take_eq hXmd 5 hlen (by decide)
      rw [show ("docs/reference/".data).take 5 = "docs/".data from by decide] at h5
      exact hX3 h5
  rw [show patRef ++ (X ++ ['.', 'm', 'd', ')']) =
    ']' :: ('(' :: '.' :: '/' :: (X ++ ['.', 'm', 'd', ')'])) from rfl]
  rw [scan_cons (show tryLink patDocsRef false patRef
    (']' :: ('(' :: '.' :: '/' :: (X ++ ['.', 'm', 'd', ')']))) = none from hnone)]
  rw [scan_link_id patDocsRef_head (by simp [List.mem_cons, List.mem_append, hX1])]

/-- A plain same-directory markdown link is not touched by the
`./docs/examples/` normalization pass either. -/
theorem scan4_miss_md (X : List Char) (hX1 : ']' ∉ X)
    (hX3 : X.take 5 ≠ "docs/".data) :
    scan (tryLink patDocsEx false patExUp) (patRef ++ (X ++ ['.', 'm', 'd', ')'])) =
      patRef ++ (X ++ ['.', 'm', 'd', ')']) := by
  have hnone : tryLink patDocsEx false patExUp
      (patRef ++ (X ++ ['.', 'm', 'd', ')'])) = none := by
    cases htry : tryLink patDocsEx false patExUp
        (patRef ++ (X ++ ['.', 'm', 'd', ')'])) with
    | none => rfl
    | some x =>
      exfalso
      obtain ⟨rest, hrest⟩ := tryLink_shape htry
      rw [show patDocsEx = patRef ++ "docs/examples/".data from rfl,
        List.append_assoc] at hrest
      have hXmd : X ++ ['.', 'm', 'd', ')'] = "docs/examples/".data ++ rest :=
        List.append_cancel_left hrest
      have hlen : 5 ≤ X.length := by
        have hl := congrArg List.length hXmd
        simp only [List.length_append, List.length_cons, List.length_nil] at hl
        omega
      have h5 := take_take_eq hXmd 5 hlen (by decide)
      rw [show ("docs/examples/".data).take 5 = "docs/".data from by decide] at h5
      exact hX3 h5
  rw [show patRef ++ (X ++ ['.', 'm', 'd', ')']) =
    ']' :: ('(' :: '.' :: '/' :: (X ++ ['.', 'm', 'd', ')'])) from rfl]
  rw [scan_cons (show tryLink patDocsEx false patExUp
    (']' :: ('(' :: '.' :: '/' :: (X ++ ['.', 'm', 'd', ')']))) = none from hnone)]
  rw [scan_link_id patDocsEx_head (by simp [List.mem_cons, List.mem_append, hX1])]

/-- An up-and-into-examples link is not touched by the `./docs/reference/`
pass (the openings diverge at the fourth character). -/
theorem scan3_miss_exUp (Y : List Char) (hY1 : ']' ∉ Y) :
    scan (tryLink patDocsRef false patRef) (patExUp ++ (Y ++ [')'])) =
      patExUp ++ (Y ++ [')']) := by
  have hnone : tryLink patDocsRef false patRef (patExUp ++ (Y ++ [')'])) = none := by
    cases htry : tryLink patDocsRef false patRef (patExUp ++ (Y ++ [')'])) with
    | none => rfl
    | some x =>
      exfalso
      obtain ⟨rest, hrest⟩ := tryLink_shape htry
      have h4 := take_take_eq hrest 4 (by decide) (by decide)
      exact absurd h4 (by decide)
  rw [show patExUp ++ (Y ++ [')']) =
    ']' :: ('(' :: '.' :: '.' :: '/' :: 'e' :: 'x' :: 'a' :: 'm' :: 'p' :: 'l' :: 'e' :: 's' :: '/' :: (Y ++ [')'])) from rfl]
  rw [scan_cons (show tryLink patDocsRef false patRef
    (']' :: ('(' :: '.' :: '.' :: '/' :: 'e' :: 'x' :: 'a' :: 'm' :: 'p' :: 'l' :: 'e' :: 's' :: '/' :: (Y ++ [')']))) = none from hnone)]
  rw [scan_link_id patDocsRef_head (by simp [List.mem_cons, List.mem_append, hY1])]

/-- An up-and-into-examples link is not touched by the `./docs/examples/`
pass either. -/
theorem scan4_miss_exUp (Y : List Char) (hY1 : ']' ∉ Y) :
    scan (tryLink patDocsEx false patExUp) (patExUp ++ (Y ++ [')'])) =
      patExUp ++ (Y ++ [')']) := by
  have hnone : tryLink patDocsEx false patExUp (patExUp ++ (Y ++ [')'])) = none := by
    cases htry : tryLink patDocsEx false patExUp (patExUp ++ (Y ++ [')'])) with
    | none => rfl
    | some x =>
      exfalso
      obtain ⟨rest, hrest⟩ := tryLink_shape htry
      have h4 := take_take_eq hrest 4 (by decide) (by decide)
      exact absurd h4 (by decide)
  rw [show patExUp ++ (Y ++ [')']) =
    ']' :: ('(' :: '.' :: '.' :: '/' :: 'e' :: 'x' :: 'a' :: 'm' :: 'p' :: 'l' :: 'e' :: 's' :: '/' :: (Y ++ [')'])) from rfl]
  rw [scan_cons (show tryLink patDocsEx false patExUp
    (']' :: ('(' :: '.' :: '.' :: '/' :: 'e' :: 'x' :: 'a' :: 'm' :: 'p' :: 'l' :: 'e' :: 's' :: '/' :: (Y ++ [')']))) = none from hnone)]
  rw [scan_link_id patDocsEx_head (by simp [List.mem_cons, List.mem_append, hY1])]

/-- A full match at the head of one of the erroneous-pattern passes
rewrites the whole link to the corrected opening. -/
theorem scan_pos_core (pat rp : List Char) (S : List Char) (hS : ')' ∉ S)
    (hne : S ≠ []) :
    scan (tryLink pat false rp) (pat ++ (S ++ [')'])) = rp ++ S ++ [')'] := by
  have hok : (if false then endsWithMd S else !S.isEmpty) = true := by
    obtain ⟨c, cs, rfl⟩ := List.exists_cons_of_ne_nil hne
    rfl
  have hm := tryLink_pos pat false rp S [] hS hok
  have hlen : pat.length + S.length + 1 = (pat ++ (S ++ [')'])).length := by
    simp only [List.length_append, List.length_cons, List.length_nil]
    omega
  rw [hlen] at hm
  exact scan_all hm (by simp)

/-- The corrected same-directory link produced by the `./docs/reference/`
pass is not then hit by the `./docs/examples/` pass, provided the target
does not itself open with `docs/examples/`. -/
theorem scan4_miss_refLink (Z : List Char) (hZ1 : ']' ∉ Z)
    (hZ5 : Z.take 14 ≠ "docs/examples/".data) :
    scan (tryLink patDocsEx false patExUp) (patRef ++ (Z ++ [')'])) =
      patRef ++ (Z ++ [')']) := by
  have hnone : tryLink patDocsEx false patExUp (patRef ++ (Z ++ [')'])) = none := by
    cases htry : tryLink patDocsEx false patExUp (patRef ++ (Z ++ [')'])) with
    | none => rfl
    | some x =>
      exfalso
      obtain ⟨rest, hrest⟩ := tryLink_shape htry
      rw [show patDocsEx = patRef ++ "docs/examples/".data from rfl,
        List.append_assoc] at hrest
      have hZr : Z ++ [')'] = "docs/examples/".data ++ rest :=
        List.append_cancel_left hrest
      cases rest with
      | nil =>
        rw [List.append_nil] at hZr
        have hlast := congrArg List.getLast? hZr
        rw [List.getLast?_concat] at hlast
        exact absurd hlast (by decide)
      | cons r0 rs =>
        have hlen : 14 ≤ Z.length := by
          have hl := congrArg List.length hZr
          simp only [List.length_append, List.length_cons, List.length_nil] at hl
          omega
        have h14 := take_take_eq hZr 14 hlen (by decide)
        rw [show ("docs/examples/".data).take 14 = "docs/examples/".data
          from by decide] at h14
        exact hZ5 h14
  rw [show patRef ++ (Z ++ [')']) =
    ']' :: ('(' :: '.' :: '/' :: (Z ++ [')'])) from rfl]
  rw [scan_cons (show tryLink patDocsEx false patExUp
    (']' :: ('(' :: '.' :: '/' :: (Z ++ [')']))) = none from hnone)]
  rw [scan_link_id patDocsEx_head (by simp [List.mem_cons, List.mem_append, hZ1])]

/-- The erroneous `./docs/examples/` link is not hit by the preceding
`./docs/reference/` pass (the openings diverge inside `docs/`). -/
theorem scan3_miss_docsEx (W : List Char) (hW1 : ']' ∉ W) :
    scan (tryLink patDocsRef false patRef) (patDocsEx ++ (W ++ [')'])) =
      patDocsEx ++ (W ++ [')']) := by
  have hnone : tryLink patDocsRef false patRef (patDocsEx ++ (W ++ [')'])) = none := by
    cases htry : tryLink patDocsRef false patRef (patDocsEx ++ (W ++ [')'])) with
    | none => rfl
    | some x =>
      exfalso
      obtain ⟨rest, hrest⟩ := tryLink_shape htry
      have h10 := take_take_eq hrest 10 (by decide) (by decide)
      exact absurd h10 (by decide)
  rw [show patDocsEx ++ (W ++ [')']) =
    ']' :: ('(' :: '.' :: '/' :: 'd' :: 'o' :: 'c' :: 's' :: '/' :: 'e' :: 'x' :: 'a' :: 'm' :: 'p' :: 'l' :: 'e' :: 's' :: '/' :: (W ++ [')'])) from rfl]
  rw [scan_cons (show tryLink patDocsRef false patRef
    (']' :: ('(' :: '.' :: '/' :: 'd' :: 'o' :: 'c' :: 's' :: '/' :: 'e' :: 'x' :: 'a' :: 'm' :: 'p' :: 'l' :: 'e' :: 's' :: '/' :: (W ++ [')']))) = none from hnone)]
  rw [scan_link_id patDocsRef_head (by simp [List.mem_cons, List.mem_append, hW1])]

/-- The first two link passes rebuild their matches verbatim, so the body
transformation reduces to the two erroneous-pattern passes followed by the
table pass. -/
theorem processBody_passes (s : String) :
    processBody s = String.mk (scan tryTable
      (scan (tryLink patDocsEx false patExUp)
        (scan (tryLink patDocsRef false patRef) s.data))) := by
  show String.mk (scan tryTable (scan (tryLink patDocsEx false patExUp)
    (scan (tryLink patDocsRef false patRef)
      (scan (tryLink patExUp false patExUp)
        (scan (tryLink patRef true patRef) s.data))))) = _
  rw [scan_link_self patRef true, scan_link_self patExUp false]

/-- C4: the four link mappings of the body transformation, for link targets
free of the regex-significant characters. -/
theorem c4_link_rewriting (X Y Z W : String)
    (hX1 : ']' ∉ X.data) (hX2 : '<' ∉ X.data)
    (hX3 : X.data.take 5 ≠ "docs/".data)
    (hY1 : ']' ∉ Y.data) (hY2 : '<' ∉ Y.data)
    (hZ1 : ']' ∉ Z.data) (hZ2 : '<' ∉ Z.data) (hZ3 : ')' ∉ Z.data)
    (hZ4 : Z.data ≠ []) (hZ5 : Z.data.take 14 ≠ "docs/examples/".data)
    (hW1 : ']' ∉ W.data) (hW2 : '<' ∉ W.data) (hW3 : ')' ∉ W.data)
    (hW4 : W.data ≠ []) :
    processBody ("](./" ++ X ++ ".md)") = "](./" ++ X ++ ".md)" ∧
    processBody ("](../examples/" ++ Y ++ ")") = "](../examples/" ++ Y ++ ")" ∧
    processBody ("](./docs/reference/" ++ Z ++ ")") = "](./" ++ Z ++ ")" ∧
    processBody ("](./docs/examples/" ++ W ++ ")") = "](../examples/" ++ W ++ ")" := by
  refine ⟨?_, ?_, ?_, ?_⟩
  · rw [processBody_passes]
    rw [show ("](./" ++ X ++ ".md)").data =
      patRef ++ (X.data ++ ['.', 'm', 'd', ')']) from rfl]
    rw [scan3_miss_md X.data hX1 hX3, scan4_miss_md X.data hX1 hX3]
    rw [scan_table_id (by simp [patRef, List.mem_cons, List.mem_append, hX2])]
    rfl
  · rw [processBody_passes]
    rw [show ("](../examples/" ++ Y ++ ")").data =
      patExUp ++ (Y.data ++ [')']) from rfl]
    rw [scan3_miss_exUp Y.data hY1, scan4_miss_exUp Y.data hY1]
    rw [scan_table_id (by simp [patExUp, List.mem_cons, List.mem_append, hY2])]
    rfl
  · rw [processBody_passes]
    rw [show ("](./docs/reference/" ++ Z ++ ")").data =
      patDocsRef ++ (Z.data ++ [')']) from rfl]
    rw [scan_pos_core patDocsRef patRef Z.data hZ3 hZ4]
    rw [List.append_assoc]
    rw [scan4_miss_refLink Z.data hZ1 hZ5]
    rw [scan_table_id (by simp [patRef, List.mem_cons, List.mem_append, hZ2])]
    rfl
  · rw [processBody_passes]
    rw [show ("](./docs/examples/" ++ W ++ ")").data =
      patDocsEx ++ (W.data ++ [')']) from rfl]
    rw [scan3_miss_docsEx W.data hW1]
    rw [scan_pos_core patDocsEx patExUp W.data hW3 hW4]
    rw [List.append_assoc]
    rw [scan_table_id (by simp [patExUp, List.mem_cons, List.mem_append, hW2])]
    rfl

/-! ### The table angle-bracket pass on a single cell -/

theorem string_data_append (u v : String) : (u ++ v).data = u.data ++ v.data :=
  rfl

/-- Computation of the table matcher on a whole single-cell table with at
least one angle bracket: the last angle bracket of the cell is the one the
greedy first capture stops at, so exactly it is replaced. -/
theorem tryTable_cell (a b : List Char)
    (ha1 : '|' ∉ a) (hb1 : '|' ∉ b) (hb2 : '<' ∉ b) :
    tryTable ('|' :: ((a ++ '<' :: b) ++ ['|'])) =
      some ('|' :: ((a ++ ('&' :: 'l' :: 't' :: ';' :: b)) ++ ['|']),
        (a ++ '<' :: b).length + 2) := by
  have h1 : ∀ x ∈ a ++ '<' :: b, x ≠ '|' := by
    intro x hx
    rcases List.mem_append.mp hx with h | h
    · exact fun he => ha1 (he ▸ h)
    · rcases List.mem_cons.mp h with rfl | h
      · decide
      · exact fun he => hb1 (he ▸ h)
  have hsplit1 :=@splitUntil_append '|' (a ++ '<' :: b) [] h1
  have h2 : ∀ x ∈ b.reverse, x ≠ '<' :=
    fun x hx he => hb2 (he ▸ List.mem_reverse.mp hx)
  have hsplit2 :=@splitUntil_append '<' b.reverse a.reverse h2
  have hrev : (a ++ '<' :: b).reverse = b.reverse ++ '<' :: a.reverse := by
    simp [List.reverse_append]
  simp only [tryTable, if_pos rfl, hsplit1, List.head?, Option.some.injEq,
    if_true, hrev, hsplit2, List.tail_cons, List.reverse_reverse]

/-- The whole table pass on a single-cell table. -/
theorem scan_table_cell (a b : List Char)
    (ha1 : '|' ∉ a) (hb1 : '|' ∉ b) (hb2 : '<' ∉ b) :
    scan tryTable ('|' :: ((a ++ '<' :: b) ++ ['|'])) =
      '|' :: ((a ++ ('&' :: 'l' :: 't' :: ';' :: b)) ++ ['|']) := by
  have hm := tryTable_cell a b ha1 hb1 hb2
  have hlen : (a ++ '<' :: b).length + 2 =
      ('|' :: ((a ++ '<' :: b) ++ ['|'])).length := by
    simp only [List.length_append, List.length_cons, List.length_nil]
  rw [hlen] at hm
  exact scan_all hm (by simp)

/-- C5 (amended): in a single table cell the last angle bracket is replaced
by its HTML entity, and bodies containing no angle bracket at all are
untouched by the table pass. -/
theorem c5_table_escape (a b c : String)
    (ha1 : '|' ∉ a.data) (hb1 : '|' ∉ b.data) (hb2 : '<' ∉ b.data)
    (hc : '<' ∉ c.data) :
    escapeTables ("|" ++ a ++ "<" ++ b ++ "|") =
      "|" ++ a ++ "&lt;" ++ b ++ "|" ∧
    escapeTables c = c := by
  constructor
  · have hdata : ("|" ++ a ++ "<" ++ b ++ "|").data =
        '|' :: ((a.data ++ '<' :: b.data) ++ ['|']) := by
      simp only [string_data_append,
        show ("|" : String).data = ['|'] from rfl,
        show ("<" : String).data = ['<'] from rfl,
        List.append_assoc, List.singleton_append, List.cons_append,
        List.nil_append]
    show String.mk (scan tryTable ("|" ++ a ++ "<" ++ b ++ "|").data) = _
    rw [hdata, scan_table_cell a.data b.data ha1 hb1 hb2]
    show _ = String.mk ("|" ++ a ++ "&lt;" ++ b ++ "|").data
    congr 1
    simp only [string_data_append,
      show ("|" : String).data = ['|'] from rfl,
      show ("&lt;" : String).data = ['&', 'l', 't', ';'] from rfl,
      List.append_assoc, List.singleton_append, List.cons_append,
      List.nil_append]
  · show String.mk (scan tryTable c.data) = c
    rw [scan_table_id hc]

/-! ### Front-matter completeness and precedence -/

theorem splitDash_ne_nil (l : List Char) : splitDash l ≠ [] := by
  cases l with
  | nil => simp [splitDash]
  | cons c cs =>
    by_cases hc : c = '-'
    · simp [splitDash, hc]
    · simp only [splitDash, if_neg hc]
      cases splitDash cs <;> simp

/-- The derived display title of a non-empty base name is non-empty. -/
theorem joinSpace_ne_nil (l : List Char) (hl : l ≠ []) :
    joinSpace ((splitDash l).map capFirstL) ≠ [] := by
  cases l with
  | nil => exact absurd rfl hl
  | cons c cs =>
    by_cases hc : c = '-'
    · simp only [splitDash, if_pos hc, List.map_cons]
      cases hsd : splitDash cs with
      | nil => exact absurd hsd (splitDash_ne_nil cs)
      | cons w ws =>
        simp only [List.map_cons, joinSpace, capFirstL]
        simp
    · simp only [splitDash, if_neg hc]
      cases hsd : splitDash cs with
      | nil => exact absurd hsd (splitDash_ne_nil cs)
      | cons w ws =>
        simp only [List.map_cons, capFirstL]
        cases ws <;> simp [joinSpace]

/-- The completeness predicate of the spec: the front-matter carries
non-empty id, title and description fields. -/
def fmComplete (fm : FM) : Prop :=
  (∃ v, fm "id" = some v ∧ v ≠ "") ∧
  (∃ v, fm "title" = some v ∧ v ≠ "") ∧
  (∃ v, fm "description" = some v ∧ v ≠ "")

theorem mk_ne_empty {l : List Char} (h : l ≠ []) : String.mk l ≠ "" := by
  intro he
  exact h (congrArg String.data he)

/-- C2 (amended): when the base name derived from the file name is
non-empty and every id/title/description field the source front-matter
carries is non-empty, the output front-matter is complete. -/
theorem c2_frontmatter_complete (name : String) (d : Doc)
    (hbase : stripMdFirst name ≠ "")
    (hid : ∀ v, d.data "id" = some v → v ≠ "")
    (htitle : ∀ v, d.data "title" = some v → v ≠ "")
    (hdesc : ∀ v, d.data "description" = some v → v ≠ "") :
    fmComplete ((processDoc name d).data) := by
  have hbl : (stripMdFirst name).data ≠ [] := by
    intro h
    exact hbase (by
      rw [show stripMdFirst name = String.mk (stripMdFirst name).data from rfl, h])
  have htb : baseTitle name ≠ "" :=
    mk_ne_empty (joinSpace_ne_nil (stripMdFirst name).data hbl)
  refine ⟨?_, ?_, ?_⟩
  · cases hv : d.data "id" with
    | some v => exact ⟨v, by simp [processDoc, mergedFM, hv], hid v hv⟩
    | none =>
      exact ⟨stripMdFirst name, by simp [processDoc, mergedFM, hv], hbase⟩
  · cases hv : d.data "title" with
    | some v => exact ⟨v, by simp [processDoc, mergedFM, hv], htitle v hv⟩
    | none =>
      exact ⟨baseTitle name, by simp [processDoc, mergedFM, hv], htb⟩
  · cases hv : d.data "description" with
    | some v => exact ⟨v, by simp [processDoc, mergedFM, hv], hdesc v hv⟩
    | none =>
      refine ⟨baseTitle name ++ " specification",
        by simp [processDoc, mergedFM, hv], ?_⟩
      intro he
      have := congrArg String.data he
      simp [string_data_append] at this

/-- A source document whose front-matter carries an explicitly empty title,
used to refute the unconditional completeness claim. -/
def emptyTitleDoc : Doc :=
  { data := fun k => if k = "title" then some "" else none, body := "x" }

/-- C2 (counterexample): the object spread in the front-matter merge lets
an explicitly empty source title survive into the output, so the
unconditional completeness claim is false. -/
theorem c2_counterexample :
    ¬ ∀ (name : String) (d : Doc), fmComplete ((processDoc name d).data) := by
  intro h
  obtain ⟨-, ⟨v, hv, hne⟩, -⟩ := h "doc.md" emptyTitleDoc
  rw [show (processDoc "doc.md" emptyTitleDoc).data "title" = some "" from rfl]
    at hv
  exact hne (Option.some.inj hv).symm

/-- C3: every field explicitly present in the source front-matter appears
unchanged in the output front-matter, taking precedence over the derived
defaults. -/
theorem c3_explicit_precedence (name : String) (d : Doc) (k v : String)
    (h : d.data k = some v) : (processDoc name d).data k = some v := by
  simp [processDoc, mergedFM, h]

/-! ### Characterization of the specs write loop -/

/-- The prefix of the processing list that the write loop completes before
hitting a name that is not a plain file. -/
def procPre (es : List (String × SpecEntry)) : List String → List String
  | [] => []
  | f :: fs =>
    match lookupEntry es f with
    | some (SpecEntry.file _) => f :: procPre es fs
    | _ => []

/-- Whether every name in the processing list is a plain file. -/
def allGood (es : List (String × SpecEntry)) : List String → Bool
  | [] => true
  | f :: fs =>
    match lookupEntry es f with
    | some (SpecEntry.file _) => allGood es fs
    | _ => false

theorem loopSpecs_fst (es : List (String × SpecEntry)) (fs : List String)
    (ref : String → Option Doc) :
    (loopSpecs es fs ref).1 = allGood es fs := by
  induction fs generalizing ref with
  | nil => rfl
  | cons f fs ih =>
    cases hl : lookupEntry es f with
    | none => simp [loopSpecs, allGood, hl]
    | some e =>
      cases e with
      | file d => simp [loopSpecs, allGood, hl, ih]
      | dir es2 => simp [loopSpecs, allGood, hl]

theorem procPre_sub {es : List (String × SpecEntry)} {fs : List String}
    {n : String} (h : n ∈ procPre es fs) : n ∈ fs := by
  induction fs with
  | nil => simp [procPre] at h
  | cons f fs ih =>
    cases hl : lookupEntry es f with
    | none => rw [procPre, hl] at h; simp at h
    | some e =>
      cases e with
      | file d =>
        rw [procPre, hl] at h
        simp only [List.mem_cons] at h ⊢
        rcases h with h | h
        · exact Or.inl h
        · exact Or.inr (ih h)
      | dir es2 => rw [procPre, hl] at h; simp at h

/-- Pointwise characterization of the write loop: a name receives its
processed document exactly when it is a plain file and lies in the
completed prefix; every other name keeps its previous content. -/
theorem loopSpecs_apply (es : List (String × SpecEntry)) :
    ∀ (fs : List String) (ref : String → Option Doc) (n : String),
    (loopSpecs es fs ref).2 n =
      match lookupEntry es n with
      | some (SpecEntry.file d) =>
        if n ∈ procPre es fs then some (processDoc n d) else ref n
      | _ => ref n := by
  intro fs
  induction fs with
  | nil =>
    intro ref n
    cases hln : lookupEntry es n with
    | none => simp [loopSpecs, procPre, hln]
    | some e => cases e <;> simp [loopSpecs, procPre, hln]
  | cons f fs ih =>
    intro ref n
    cases hl : lookupEntry es f with
    | none =>
      cases hln : lookupEntry es n with
      | none => simp [loopSpecs, procPre, hl, hln]
      | some e => cases e <;> simp [loopSpecs, procPre, hl, hln]
    | some e =>
      cases e with
      | dir es2 =>
        cases hln : lookupEntry es n with
        | none => simp [loopSpecs, procPre, hl, hln]
        | some e2 => cases e2 <;> simp [loopSpecs, procPre, hl, hln]
      | file d =>
        have hstep : loopSpecs es (f :: fs) ref =
            loopSpecs es fs (update ref f (processDoc f d)) := by
          simp [loopSpecs, hl]
        have hpp : procPre es (f :: fs) = f :: procPre es fs := by
          simp [procPre, hl]
        rw [hstep, ih, hpp]
        cases hln : lookupEntry es n with
        | none =>
          have hnf : ¬ n = f := by
            intro he
            rw [he, hl] at hln
            exact Option.noConfusion hln
          simp [hln, update, hnf]
        | some e2 =>
          cases e2 with
          | dir es3 =>
            have hnf : ¬ n = f := by
              intro he
              rw [he, hl] at hln
              simp at hln
            simp [hln, update, hnf]
          | file d2 =>
            by_cases hnf : n = f
            · subst hnf
              rw [hl] at hln
              have hd : d2 = d := (SpecEntry.file.inj (Option.some.inj hln)).symm
              subst hd
              simp [hl, update, List.mem_cons]
            · simp [hln, update, hnf, List.mem_cons]

/-- Every name the spec sync selects is a plain file entry. -/
def allMdFiles (es : List (String × SpecEntry)) : Prop :=
  ∀ f ∈ mdNames es, ∃ d, lookupEntry es f = some (SpecEntry.file d)

theorem allGood_of (es : List (String × SpecEntry)) (fs : List String)
    (h : ∀ f ∈ fs, ∃ d, lookupEntry es f = some (SpecEntry.file d)) :
    allGood es fs = true := by
  induction fs with
  | nil => rfl
  | cons f fs ih =>
    obtain ⟨d, hd⟩ := h f (by simp)
    have := ih (fun g hg => h g (by simp [hg]))
    simp [allGood, hd, this]

theorem procPre_eq (es : List (String × SpecEntry)) (fs : List String)
    (h : ∀ f ∈ fs, ∃ d, lookupEntry es f = some (SpecEntry.file d)) :
    procPre es fs = fs := by
  induction fs with
  | nil => rfl
  | cons f fs ih =>
    obtain ⟨d, hd⟩ := h f (by simp)
    have := ih (fun g hg => h g (by simp [hg]))
    simp [procPre, hd, this]

/-- Rerunning the write loop over its own output changes nothing: every
write deposits a value that depends only on the name and the source. -/
theorem loopSpecs_stable (es : List (String × SpecEntry)) (fs : List String)
    (ref : String → Option Doc) :
    loopSpecs es fs (loopSpecs es fs ref).2 =
      ((loopSpecs es fs ref).1, (loopSpecs es fs ref).2) := by
  have hsnd : (loopSpecs es fs (loopSpecs es fs ref).2).2 =
      (loopSpecs es fs ref).2 := by
    funext n
    rw [loopSpecs_apply]
    cases hln : lookupEntry es n with
    | none => simp
    | some e =>
      cases e with
      | dir es2 => simp
      | file d =>
        show (if n ∈ procPre es fs then some (processDoc n d)
          else (loopSpecs es fs ref).2 n) = (loopSpecs es fs ref).2 n
        by_cases hmem : n ∈ procPre es fs
        · rw [if_pos hmem, loopSpecs_apply, hln]
          simp [hmem]
        · rw [if_neg hmem]
  have hfst : (loopSpecs es fs (loopSpecs es fs ref).2).1 =
      (loopSpecs es fs ref).1 := by
    rw [loopSpecs_fst, loopSpecs_fst]
  rw [Prod.ext_iff]
  exact ⟨hfst, hsnd⟩

/-! ### The examples sync -/

/-- The last write that `fs.copy` performs at a given name, if any. -/
def lookLast : List (String × String) → String → Option String
  | [], _ => none
  | (m, c) :: rest, n =>
    match lookLast rest n with
    | some v => some v
    | none => if n = m then some c else none

theorem copyAll_apply (exs : List (String × String)) :
    ∀ (e : String → Option ExEntry) (n : String),
    copyAll e exs n =
      match lookLast exs n with
      | some c => some (ExEntry.raw c)
      | none => e n := by
  induction exs with
  | nil => intro e n; rfl
  | cons p rest ih =>
    obtain ⟨m, c⟩ := p
    intro e n
    rw [show copyAll e ((m, c) :: rest) =
      copyAll (update e m (ExEntry.raw c)) rest from rfl]
    rw [ih]
    cases hlr : lookLast rest n with
    | some v => simp [lookLast, hlr]
    | none =>
      by_cases hnm : n = m
      · subst hnm
        simp [lookLast, hlr, update]
      · simp [lookLast, hlr, update, hnm]

theorem copyAll_idem (e : String → Option ExEntry)
    (exs : List (String × String)) :
    copyAll (copyAll e exs) exs = copyAll e exs := by
  funext n
  conv_lhs => rw [copyAll_apply]
  cases hlr : lookLast exs n with
  | some v => rw [copyAll_apply, hlr]
  | none => rfl

/-- Rerunning the examples sync over its own output changes nothing: the
copy rewrites identical raw contents and the index check then finds the
index document already present. -/
theorem syncExamplesOp_idem (exs : List (String × String))
    (e : String → Option ExEntry) :
    syncExamplesOp exs (syncExamplesOp exs e) = syncExamplesOp exs e := by
  unfold syncExamplesOp
  cases h1 : copyAll e exs "index.md" with
  | some v =>
    simp only [h1]
    rw [copyAll_idem, h1]
  | none =>
    simp only [h1]
    have hE : copyAll (update (copyAll e exs) "index.md"
        (ExEntry.doc indexDoc)) exs =
        update (copyAll e exs) "index.md" (ExEntry.doc indexDoc) := by
      funext n
      rw [copyAll_apply]
      cases hlr : lookLast exs n with
      | none => rfl
      | some c =>
        by_cases hni : n = "index.md"
        · exfalso
          rw [hni] at hlr
          rw [copyAll_apply, hlr] at h1
          exact Option.noConfusion h1
        · rw [update, if_neg hni, copyAll_apply, hlr]
    rw [hE]
    rw [show update (copyAll e exs) "index.md" (ExEntry.doc indexDoc)
      "index.md" = some (ExEntry.doc indexDoc) from by simp [update]]

/-! ### The root-document sync -/

/-- Rerunning the root-document sync over its own output changes nothing:
each present root document is rewritten with the same fixed value. -/
theorem syncRootDocsOp_idem (src : SourceTree) (r : String → Option Doc) :
    syncRootDocsOp src (syncRootDocsOp src r) = syncRootDocsOp src r := by
  funext n
  cases hr : src.readme <;> cases hc : src.contributing <;>
    cases hch : src.changelog <;>
    all_goals
      simp only [syncRootDocsOp, hr, hc, hch, update]
      try split_ifs <;> rfl

/-! ### Shapes of the whole run -/

theorem runSync_no_specs (src : SourceTree) (d0 : DestTree)
    (h : src.specs = none) : runSync src d0 = (1, d0) := by
  simp [runSync, h]

theorem runSync_spec_fail (src : SourceTree) (d0 : DestTree)
    (es : List (String × SpecEntry)) (h1 : src.specs = some es)
    (hg : allGood es (mdNames es) = false) :
    runSync src d0 =
      (1, { d0 with reference := (syncSpecsOp es d0.reference).2 }) := by
  have hf : (syncSpecsOp es d0.reference).1 = false :=
    (loopSpecs_fst es (mdNames es) d0.reference).trans hg
  simp [runSync, h1, hf]

theorem runSync_no_examples (src : SourceTree) (d0 : DestTree)
    (es : List (String × SpecEntry)) (h1 : src.specs = some es)
    (hg : allGood es (mdNames es) = true) (h3 : src.examples = none) :
    runSync src d0 =
      (1, { d0 with reference := (syncSpecsOp es d0.reference).2 }) := by
  have ht : (syncSpecsOp es d0.reference).1 = true :=
    (loopSpecs_fst es (mdNames es) d0.reference).trans hg
  simp [runSync, h1, ht, h3]

theorem runSync_success (src : SourceTree) (d0 : DestTree)
    (es : List (String × SpecEntry)) (exs : List (String × String))
    (h1 : src.specs = some es) (hg : allGood es (mdNames es) = true)
    (h3 : src.examples = some exs) :
    runSync src d0 =
      (0, { reference :=
              update (syncSpecsOp es d0.reference).2 "overview.md" overviewDoc,
            exampleFiles := syncExamplesOp exs d0.exampleFiles,
            rootDocs := syncRootDocsOp src d0.rootDocs }) := by
  have ht : (syncSpecsOp es d0.reference).1 = true :=
    (loopSpecs_fst es (mdNames es) d0.reference).trans hg
  simp [runSync, h1, ht, h3]

/-! ### Claim theorems about the run -/

/-- C6: a resolved source tree without the specs folder aborts with a
non-zero exit before any of the later operations, leaving every part of
the destination tree untouched. -/
theorem c6_missing_specs_aborts (src : SourceTree) (d0 : DestTree)
    (h : src.specs = none) :
    (runSync src d0).1 = 1 ∧
    (runSync src d0).2.reference = d0.reference ∧
    (runSync src d0).2.exampleFiles = d0.exampleFiles ∧
    (runSync src d0).2.rootDocs = d0.rootDocs := by
  rw [runSync_no_specs src d0 h]
  exact ⟨rfl, rfl, rfl, rfl⟩

/-- C1 (amended): after a successful run the reference folder holds
exactly the markdown names of the source specs folder, the generated
overview document, and whatever files the folder already contained. -/
theorem c1_filename_sets (src : SourceTree) (d0 : DestTree)
    (es : List (String × SpecEntry)) (exs : List (String × String))
    (h1 : src.specs = some es) (h2 : allMdFiles es)
    (h3 : src.examples = some exs) (n : String) :
    ((runSync src d0).2.reference n).isSome = true ↔
      (n ∈ mdNames es ∨ n = "overview.md" ∨ (d0.reference n).isSome = true) := by
  have hg : allGood es (mdNames es) = true := allGood_of es (mdNames es) h2
  rw [runSync_success src d0 es exs h1 hg h3]
  show (update (syncSpecsOp es d0.reference).2 "overview.md" overviewDoc
    n).isSome = true ↔ _
  by_cases hov : n = "overview.md"
  · simp [update, hov]
  · rw [update]
    simp only [if_neg hov]
    rw [show (syncSpecsOp es d0.reference).2 n = _ from
      loopSpecs_apply es (mdNames es) d0.reference n]
    rw [procPre_eq es (mdNames es) h2]
    cases hln : lookupEntry es n with
    | none =>
      have hnm : n ∉ mdNames es := by
        intro hm
        obtain ⟨d, hd⟩ := h2 n hm
        rw [hd] at hln
        exact Option.noConfusion hln
      simp [hnm, hov]
    | some e =>
      cases e with
      | dir es2 =>
        have hnm : n ∉ mdNames es := by
          intro hm
          obtain ⟨d, hd⟩ := h2 n hm
          rw [hd] at hln
          simp at hln
        simp [hnm, hov]
      | file d =>
        by_cases hmem : n ∈ mdNames es
        · simp [hmem]
        · simp [hmem, hov]

/-- Pointwise characterization of the root-document sync: a destination
name holds a document exactly when its source root file is present (or the
name already held one); absent source files are skipped without failing. -/
theorem syncRootDocsOp_apply (src : SourceTree) (r : String → Option Doc)
    (n : String) :
    ((syncRootDocsOp src r) n).isSome = true ↔
      ((src.readme.isSome = true ∧ n = "intro.md") ∨
       (src.contributing.isSome = true ∧ n = "contributing.md") ∨
       (src.changelog.isSome = true ∧ n = "changelog.md") ∨
       (r n).isSome = true) := by
  cases hr : src.readme <;> cases hc : src.contributing <;>
    cases hch : src.changelog <;>
    all_goals
      simp only [syncRootDocsOp, hr, hc, hch, update, Option.isSome_some,
        Option.isSome_none]
      first
      | (split_ifs <;> simp_all)
      | simp

/-- C7: whichever of the optional root documents are absent from the
source, the run still succeeds and produces exactly the destination root
documents of the source files that are present. -/
theorem c7_optional_root_docs (src : SourceTree) (d0 : DestTree)
    (es : List (String × SpecEntry)) (exs : List (String × String))
    (h1 : src.specs = some es) (h2 : allMdFiles es)
    (h3 : src.examples = some exs) :
    (runSync src d0).1 = 0 ∧
    ∀ n, ((runSync src d0).2.rootDocs n).isSome = true ↔
      ((src.readme.isSome = true ∧ n = "intro.md") ∨
       (src.contributing.isSome = true ∧ n = "contributing.md") ∨
       (src.changelog.isSome = true ∧ n = "changelog.md") ∨
       (d0.rootDocs n).isSome = true) := by
  have hg : allGood es (mdNames es) = true := allGood_of es (mdNames es) h2
  rw [runSync_success src d0 es exs h1 hg h3]
  exact ⟨rfl, fun n => syncRootDocsOp_apply src d0.rootDocs n⟩

/-- Every specs entry selected by the markdown filter is a plain file. -/
def allMdOk (src : SourceTree) : Prop :=
  ∀ es, src.specs = some es → allMdFiles es

/-- C8 (amended): given markdown-named entries that are plain files, the
run exits zero exactly when both the specs folder and the examples folder
exist; a missing examples folder is a third fatal case. -/
theorem c8_exit_codes (src : SourceTree) (d0 : DestTree) (h : allMdOk src) :
    (runSync src d0).1 = 0 ↔
      (src.specs ≠ none ∧ src.examples ≠ none) := by
  cases h1 : src.specs with
  | none => rw [runSync_no_specs src d0 h1]; simp
  | some es =>
    have hg : allGood es (mdNames es) = true :=
      allGood_of es (mdNames es) (h es h1)
    cases h3 : src.examples with
    | none => rw [runSync_no_examples src d0 es h1 hg h3]; simp
    | some exs => rw [runSync_success src d0 es exs h1 hg h3]; simp

/-- C10: the spec sync writes exactly at the top-level markdown names of
the specs folder; nested files and top-level non-markdown files produce no
output. -/
theorem c10_top_level_md_only (es : List (String × SpecEntry))
    (ref : String → Option Doc) (h : allMdFiles es) :
    (syncSpecsOp es ref).1 = true ∧
    (∀ n ∈ mdNames es, ∃ d, lookupEntry es n = some (SpecEntry.file d) ∧
      (syncSpecsOp es ref).2 n = some (processDoc n d)) ∧
    (∀ n, n ∉ mdNames es → (syncSpecsOp es ref).2 n = ref n) := by
  refine ⟨(loopSpecs_fst es (mdNames es) ref).trans
    (allGood_of es (mdNames es) h), ?_, ?_⟩
  · intro n hn
    obtain ⟨d, hd⟩ := h n hn
    refine ⟨d, hd, ?_⟩
    show (loopSpecs es (mdNames es) ref).2 n = some (processDoc n d)
    rw [loopSpecs_apply, procPre_eq es (mdNames es) h]
    simp [hd, hn]
  · intro n hn
    show (loopSpecs es (mdNames es) ref).2 n = ref n
    rw [loopSpecs_apply]
    cases hln : lookupEntry es n with
    | none => simp
    | some e =>
      cases e with
      | dir es2 => simp
      | file d =>
        have hnm : n ∉ procPre es (mdNames es) :=
          fun hm => hn (procPre_sub hm)
        simp [hnm]

/-- C9: a second run over an unchanged source reproduces the destination
tree and the exit outcome of the first run byte for byte. -/
theorem c9_idempotent (src : SourceTree) (d0 : DestTree) :
    runSync src (runSync src d0).2 = runSync src d0 := by
  cases h1 : src.specs with
  | none =>
    rw [runSync_no_specs src d0 h1]
    exact runSync_no_specs src d0 h1
  | some es =>
    cases hg : allGood es (mdNames es) with
    | false =>
      rw [runSync_spec_fail src d0 es h1 hg]
      rw [runSync_spec_fail src _ es h1 hg]
      have hs : (syncSpecsOp es (syncSpecsOp es d0.reference).2).2 =
          (syncSpecsOp es d0.reference).2 :=
        congrArg Prod.snd (loopSpecs_stable es (mdNames es) d0.reference)
      simp [hs]
    | true =>
      cases h3 : src.examples with
      | none =>
        rw [runSync_no_examples src d0 es h1 hg h3]
        rw [runSync_no_examples src _ es h1 hg h3]
        have hs : (syncSpecsOp es (syncSpecsOp es d0.reference).2).2 =
            (syncSpecsOp es d0.reference).2 :=
          congrArg Prod.snd (loopSpecs_stable es (mdNames es) d0.reference)
        simp [hs]
      | some exs =>
        rw [runSync_success src d0 es exs h1 hg h3]
        rw [runSync_success src _ es exs h1 hg h3]
        have href : update (syncSpecsOp es
            (update (syncSpecsOp es d0.reference).2 "overview.md"
              overviewDoc)).2 "overview.md" overviewDoc =
            update (syncSpecsOp es d0.reference).2 "overview.md"
              overviewDoc := by
          funext n
          by_cases hov : n = "overview.md"
          · simp [update, hov]
          · simp only [update, if_neg hov]
            rw [show (syncSpecsOp es (update (syncSpecsOp es d0.reference).2
              "overview.md" overviewDoc)).2 n = _ from
              loopSpecs_apply es (mdNames es) _ n]
            cases hln : lookupEntry es n with
            | none =>
              show update (syncSpecsOp es d0.reference).2 "overview.md"
                overviewDoc n = _
              simp [update, hov]
            | some e =>
              cases e with
              | dir es2 =>
                show update (syncSpecsOp es d0.reference).2 "overview.md"
                  overviewDoc n = _
                simp [update, hov]
              | file d =>
                show (if n ∈ procPre es (mdNames es)
                    then some (processDoc n d)
                    else update (syncSpecsOp es d0.reference).2
                      "overview.md" overviewDoc n) =
                  (syncSpecsOp es d0.reference).2 n
                by_cases hmem : n ∈ procPre es (mdNames es)
                · rw [if_pos hmem]
                  conv_rhs => rw [show (syncSpecsOp es d0.reference).2 n = _
                    from loopSpecs_apply es (mdNames es) d0.reference n]
                  simp [hln, hmem]
                · rw [if_neg hmem]
                  simp [update, hov]
        simp [href, syncExamplesOp_idem, syncRootDocsOp_idem]

/-! ### Concrete inputs for counterexamples and witnesses -/

/-- A source document with no front-matter. -/
def docA : Doc := { data := fun _ => none, body := "hello" }

/-- A destination tree with no files. -/
def emptyDest : DestTree :=
  { reference := fun _ => none, exampleFiles := fun _ => none,
    rootDocs := fun _ => none }

/-- A resolved source with one spec file and an examples folder. -/
def srcOk : SourceTree :=
  { specs := some [("a.md", SpecEntry.file docA)], examples := some [],
    readme := none, contributing := none, changelog := none }

/-- A resolved source with a specs folder but no examples folder. -/
def srcNoEx : SourceTree :=
  { specs := some [("a.md", SpecEntry.file docA)], examples := none,
    readme := none, contributing := none, changelog := none }

/-- A resolved source with no specs folder at all. -/
def srcNone : SourceTree :=
  { specs := none, examples := none, readme := none, contributing := none,
    changelog := none }

/-- C1 (counterexample): the generated overview document always lands in
the reference folder, so its filename set strictly exceeds the set of
source markdown names. -/
theorem c1_counterexample :
    ¬ ∀ n, (((runSync srcOk emptyDest).2.reference n).isSome = true ↔
      n ∈ ["a.md"]) := by
  intro h
  have h2 := (h "overview.md").mp (by decide)
  exact absurd h2 (by decide)

/-- C5 (counterexample): in adjacent cells sharing a pipe the second cell
keeps its raw angle bracket, because the match consumes the shared pipe
and scanning resumes after it. -/
theorem c5_counterexample :
    escapeTables "|a<b|c<d|" = "|a&lt;b|c<d|" ∧
    '<' ∈ (escapeTables "|a<b|c<d|").data := ⟨by decide, by decide⟩

/-- C8 (counterexample): a resolved source with a specs folder but no
examples folder exits non-zero, refuting the claim that a present specs
folder guarantees exit code zero. -/
theorem c8_counterexample :
    ¬ ∀ (src : SourceTree) (d0 : DestTree) (es : List (String × SpecEntry)),
      src.specs = some es → (runSync src d0).1 = 0 := by
  intro h
  have h2 := h srcNoEx emptyDest [("a.md", SpecEntry.file docA)] rfl
  exact absurd h2 (by decide)

/-! ### Witnesses -/

/-- A source document carrying only an explicit title field. -/
def titleDoc : Doc :=
  { data := fun k => if k = "title" then some "My Title" else none,
    body := "b" }

/-- A source document with no front-matter at all. -/
def noFMDoc : Doc := { data := fun _ => none, body := "hello" }

/-- The specs entries of `srcOk`, proved well-formed. -/
theorem srcOk_allMd : allMdFiles [("a.md", SpecEntry.file docA)] := by
  intro f hf
  rw [show mdNames [("a.md", SpecEntry.file docA)] = ["a.md"] from rfl] at hf
  rw [List.mem_singleton] at hf
  subst hf
  exact ⟨docA, rfl⟩

/-- C1 witness: the amended filename-set theorem applied to a one-file source. -/
theorem c1_witness :
    allMdFiles [("a.md", SpecEntry.file docA)] ∧
    (((runSync srcOk emptyDest).2.reference "a.md").isSome = true ↔
      ("a.md" ∈ mdNames [("a.md", SpecEntry.file docA)] ∨
        "a.md" = "overview.md" ∨
        (emptyDest.reference "a.md").isSome = true)) :=
  ⟨srcOk_allMd,
    c1_filename_sets srcOk emptyDest [("a.md", SpecEntry.file docA)] []
      rfl srcOk_allMd rfl "a.md"⟩

/-- C2 witness: the amended completeness theorem applied to a source document without front-matter. -/
theorem c2_witness :
    stripMdFirst "workflow-schema.md" ≠ "" ∧
    fmComplete ((processDoc "workflow-schema.md" noFMDoc).data) :=
  ⟨by decide,
    c2_frontmatter_complete "workflow-schema.md" noFMDoc (by decide)
      (fun _ h => Option.noConfusion h)
      (fun _ h => Option.noConfusion h)
      (fun _ h => Option.noConfusion h)⟩

/-- C3 witness: the precedence theorem applied to an explicit title field. -/
theorem c3_witness :
    titleDoc.data "title" = some "My Title" ∧
    (processDoc "x.md" titleDoc).data "title" = some "My Title" :=
  ⟨rfl, c3_explicit_precedence "x.md" titleDoc "title" "My Title" rfl⟩

/-- C4 witness: the link mappings at concrete link targets. -/
theorem c4_witness :
    ']' ∉ "other-file".data ∧
    (processBody "](./other-file.md)" = "](./other-file.md)" ∧
     processBody "](../examples/foo.json)" = "](../examples/foo.json)" ∧
     processBody "](./docs/reference/connector-schema.md)" =
       "](./connector-schema.md)" ∧
     processBody "](./docs/examples/sample.json)" =
       "](../examples/sample.json)") :=
  ⟨by decide,
    c4_link_rewriting "other-file" "foo.json" "connector-schema.md"
      "sample.json" (by decide) (by decide) (by decide) (by decide)
      (by decide) (by decide) (by decide) (by decide) (by decide)
      (by decide) (by decide) (by decide) (by decide) (by decide)⟩

/-- C5 witness: the amended table-escaping theorem at a concrete cell. -/
theorem c5_witness :
    '|' ∉ "a".data ∧
    (escapeTables "|a<b|" = "|a&lt;b|" ∧ escapeTables "plain" = "plain") :=
  ⟨by decide,
    c5_table_escape "a" "b" "plain" (by decide) (by decide) (by decide)
      (by decide)⟩

/-- C6 witness: the abort theorem at a source with no specs folder. -/
theorem c6_witness :
    srcNone.specs = none ∧
    ((runSync srcNone emptyDest).1 = 1 ∧
     (runSync srcNone emptyDest).2.reference = emptyDest.reference ∧
     (runSync srcNone emptyDest).2.exampleFiles = emptyDest.exampleFiles ∧
     (runSync srcNone emptyDest).2.rootDocs = emptyDest.rootDocs) :=
  ⟨rfl, c6_missing_specs_aborts srcNone emptyDest rfl⟩

/-- A source with readme and changelog present but no contributing guide. -/
def srcNoContrib : SourceTree :=
  { specs := some [("a.md", SpecEntry.file docA)], examples := some [],
    readme := some docA, contributing := none, changelog := some docA }

/-- C7 witness: the graceful-skip theorem at a source missing only the
contributing guide, instantiated at the skipped destination name. -/
theorem c7_witness :
    srcNoContrib.contributing = none ∧
    (runSync srcNoContrib emptyDest).1 = 0 ∧
    (((runSync srcNoContrib emptyDest).2.rootDocs "contributing.md").isSome
        = true ↔
      ((srcNoContrib.readme.isSome = true ∧ "contributing.md" = "intro.md") ∨
       (srcNoContrib.contributing.isSome = true ∧
         "contributing.md" = "contributing.md") ∨
       (srcNoContrib.changelog.isSome = true ∧
         "contributing.md" = "changelog.md") ∨
       (emptyDest.rootDocs "contributing.md").isSome = true)) :=
  ⟨rfl,
    (c7_optional_root_docs srcNoContrib emptyDest
      [("a.md", SpecEntry.file docA)] [] rfl srcOk_allMd rfl).1,
    (c7_optional_root_docs srcNoContrib emptyDest
      [("a.md", SpecEntry.file docA)] [] rfl srcOk_allMd rfl).2
      "contributing.md"⟩

theorem srcOk_allMdOk : allMdOk srcOk := by
  intro es h
  cases h
  exact srcOk_allMd

/-- C8 witness: the amended exit-code theorem at a fully-formed source. -/
theorem c8_witness :
    allMdOk srcOk ∧
    ((runSync srcOk emptyDest).1 = 0 ↔
      (srcOk.specs ≠ none ∧ srcOk.examples ≠ none)) :=
  ⟨srcOk_allMdOk, c8_exit_codes srcOk emptyDest srcOk_allMdOk⟩

/-- Specs entries with a nested subdirectory containing a markdown file
and a top-level non-markdown file. -/
def esNested : List (String × SpecEntry) :=
  [("a.md", SpecEntry.file docA), ("notes.txt", SpecEntry.file docA),
   ("sub", SpecEntry.dir [("b.md", SpecEntry.file docA)])]

theorem esNested_allMd : allMdFiles esNested := by
  intro f hf
  rw [show mdNames esNested = ["a.md"] from rfl] at hf
  rw [List.mem_singleton] at hf
  subst hf
  exact ⟨docA, rfl⟩

/-- C10 witness: the top-level-markdown theorem at a source with a nested folder and a text file. -/
theorem c10_witness :
    allMdFiles esNested ∧
    (syncSpecsOp esNested (fun _ => none)).2 "notes.txt" = none ∧
    (syncSpecsOp esNested (fun _ => none)).2 "b.md" = none :=
  ⟨esNested_allMd,
    (c10_top_level_md_only esNested (fun _ => none) esNested_allMd).2.2
      "notes.txt" (by decide),
    (c10_top_level_md_only esNested (fun _ => none) esNested_allMd).2.2
      "b.md" (by decide)⟩

end SyncSpec
